import Mathlib

/-!
Verification of the doc-finder engine (doc-finder.js).

The engine persists four keyed collections (contents, noise, words,
completions) and exposes addNoiseWords, addContent, docContent, find and
complete.  The shallow embedding below models each collection as a field of
a state structure: keyed-only collections (contents, words, completions)
are functions from the key to an optional value, while the noise
collection, which is also enumerated, is a list of words together with the
in-memory cache list.  All machine strings are Lean strings, offsets are
naturals (character indices) and every operation is a computable structural
recursion so concrete runs evaluate by kernel reduction.
-/

set_option maxHeartbeats 1000000

/-- The apostrophe character, written via its code point. -/
def apostrophe : Char := Char.ofNat 39

/-- Membership in the character class of lowercase ASCII letters,
the class kept by the normalizeWord regex. -/
def isLowerAlpha (c : Char) : Bool := 97 ≤ c.toNat && c.toNat ≤ 122

/-- Membership in the character class of ASCII letters, as tested by the
guard regex of complete. -/
def isAsciiAlpha (c : Char) : Bool :=
  (97 ≤ c.toNat && c.toNat ≤ 122) || (65 ≤ c.toNat && c.toNat ≤ 90)

/-- stem from doc-finder.js: remove a trailing apostrophe-s suffix. -/
def stem (word : String) : String :=
  match word.data.reverse with
  | c1 :: c2 :: rest =>
    if c1 = 's' ∧ c2 = apostrophe then String.mk rest.reverse else word
  | _ => word

/-- normalize from doc-finder.js: lowercase, stem, then drop every
character outside the class of lowercase ASCII letters. -/
def normalizeWord (word : String) : String :=
  String.mk ((stem (String.mk (word.data.map Char.toLower))).data.filter isLowerAlpha)

/-- Emit the pending token accumulator (held reversed) with the offset of
its start; an empty accumulator emits nothing. -/
def flushTok : List Char → Nat → List (String × Nat)
  | [], _ => []
  | a :: as, st => [(String.mk (a :: as).reverse, st)]

/-- The WORD_REGEX exec loop: scan the characters and collect every maximal
run of non-whitespace characters together with the offset of its start. -/
def tokenizeAux : List Char → Nat → List Char → Nat → List (String × Nat)
  | [], _, acc, st => flushTok acc st
  | c :: cs, i, [], st =>
    if c.isWhitespace then tokenizeAux cs (i + 1) [] st
    else tokenizeAux cs (i + 1) [c] i
  | c :: cs, i, a :: as, st =>
    if c.isWhitespace then flushTok (a :: as) st ++ tokenizeAux cs (i + 1) [] st
    else tokenizeAux cs (i + 1) (c :: a :: as) st

/-- All maximal non-whitespace tokens of a text with their start offsets. -/
def tokenize (text : String) : List (String × Nat) :=
  tokenizeAux text.data 0 [] 0

/-- Emit the pending token of the fused scan of wordsLow: normalizeWord it and
keep it when it is nonempty and not a noise word. -/
def flushWord (noise : List String) : List Char → Nat → List (String × Nat)
  | [], _ => []
  | a :: as, st =>
    let w := normalizeWord (String.mk (a :: as).reverse)
    if ¬ w = "" ∧ ¬ w ∈ noise then [(w, st)] else []

/-- The loop of the method wordsLow: tokenization fused with normalization
and the noise filter, keeping the offset of the raw token start. -/
def wordsLowAux (noise : List String) : List Char → Nat → List Char → Nat → List (String × Nat)
  | [], _, acc, st => flushWord noise acc st
  | c :: cs, i, [], st =>
    if c.isWhitespace then wordsLowAux noise cs (i + 1) [] st
    else wordsLowAux noise cs (i + 1) [c] i
  | c :: cs, i, a :: as, st =>
    if c.isWhitespace then flushWord noise (a :: as) st ++ wordsLowAux noise cs (i + 1) [] st
    else wordsLowAux noise cs (i + 1) (c :: a :: as) st

/-- The method wordsLow of DocFinder: pairs of a non-noise normalized word
and the offset of the raw token it came from. -/
def wordsLow (noise : List String) (content : String) : List (String × Nat) :=
  wordsLowAux noise content.data 0 [] 0

/-- The method words of DocFinder: the words of wordsLow without offsets. -/
def wordsOf (noise : List String) (content : String) : List String :=
  (wordsLow noise content).map Prod.fst

/-- The per-token step shared by tokenize and wordsLow: normalizeWord the raw
token and keep it unless it is empty or noise. -/
def normFilter (noise : List String) (p : String × Nat) : Option (String × Nat) :=
  if normalizeWord p.1 = "" ∨ normalizeWord p.1 ∈ noise then none
  else some (normalizeWord p.1, p.2)

/-- Lookup in an association list, first match wins (a JS object or Map
holds one binding per key). -/
def lookupA {α β : Type} [DecidableEq α] : List (α × β) → α → Option β
  | [], _ => none
  | (k, v) :: ps, a => if k = a then some v else lookupA ps a

/-- Set a key in an association list: overwrite the first binding in place,
append a fresh binding at the end when absent (JS object field assignment
and the Mongo upsert dollar-set both behave this way). -/
def setAssoc {α β : Type} [DecidableEq α] : List (α × β) → α → β → List (α × β)
  | [], k, v => [(k, v)]
  | (k2, v2) :: rest, k, v =>
    if k2 = k then (k, v) :: rest else (k2, v2) :: setAssoc rest k v

/-- Deduplication keeping first occurrences, the order a JS Set preserves;
seen accumulates the elements already emitted or initially excluded. -/
def dedupAux {α : Type} [DecidableEq α] : List α → List α → List α
  | [], _ => []
  | x :: xs, seen =>
    if x ∈ seen then dedupAux xs seen else x :: dedupAux xs (x :: seen)

/-- Array.from(new Set(l)): first-occurrence deduplication. -/
def jsDedup {α : Type} [DecidableEq α] (l : List α) : List α := dedupAux l []

/-- Lexicographic comparison of character lists by code point, the order
the JS string sort and localeCompare are modelled by. -/
def charListLe : List Char → List Char → Bool
  | [], _ => true
  | _ :: _, [] => false
  | a :: as, b :: bs =>
    if a.toNat < b.toNat then true
    else if b.toNat < a.toNat then false
    else charListLe as bs

/-- Lexicographic string comparison by code point. -/
def strLe (a b : String) : Bool := charListLe a.data b.data

/-- Insert into a list sorted by the boolean comparison le. -/
def orderedIns {α : Type} (le : α → α → Bool) (x : α) : List α → List α
  | [] => [x]
  | y :: ys => if le x y then x :: y :: ys else y :: orderedIns le x ys

/-- Comparison sort modelling Array.prototype.sort with a consistent
comparator: the output is a permutation sorted by le. -/
def isort {α : Type} (le : α → α → Bool) (l : List α) : List α :=
  l.foldr (orderedIns le) []

/-- The error value thrown by docContent: a code and a message. -/
structure DFErr where
  code : String
  message : String
deriving DecidableEq, Repr

/-- The persistent state of a DocFinder: the four collections plus the
in-memory noise cache. -/
@[ext]
structure DFState where
  contents : String → Option String
  noiseTable : List String
  noiseWords : List String
  wordsTable : String → Option (List (String × (Nat × Nat)))
  completionsTable : Char → Option (List String)

/-- The state with all collections empty. -/
def emptyState : DFState where
  contents := fun _ => none
  noiseTable := []
  noiseWords := []
  wordsTable := fun _ => none
  completionsTable := fun _ => none

/-- addNoiseWords: normalized words of the text not already cached are
deduplicated, inserted into the noise collection and added to the cache. -/
def addNoiseWords (s : DFState) (noiseText : String) : DFState :=
  let ws := wordsOf s.noiseWords noiseText
  let fresh := (jsDedup ws).filter (fun w => ¬ w ∈ s.noiseWords)
  { s with
    noiseTable := s.noiseTable ++ fresh
    noiseWords := s.noiseWords ++ fresh }

/-- One step of makeIndex: bump the count of a word, keeping the offset of
its first occurrence, or open a fresh entry with count one. -/
def bumpWord (index : List (String × (Nat × Nat))) (w : String) (off : Nat) :
    List (String × (Nat × Nat)) :=
  match lookupA index w with
  | some ci => setAssoc index w (ci.1 + 1, ci.2)
  | none => index ++ [(w, (1, off))]

/-- The method makeIndex: map each non-noise normalized word of the content
to its occurrence count and first-occurrence offset, keys in first
occurrence order. -/
def makeIndex (noise : List String) (content : String) : List (String × (Nat × Nat)) :=
  (wordsLow noise content).foldl (fun idx p => bumpWord idx p.1 p.2) []

/-- One updateOne of saveWords: upsert the entry of the word p.1, setting
the field of document name to the wordInfo p.2. -/
def saveStep (name : String) (t : String → Option (List (String × (Nat × Nat))))
    (p : String × (Nat × Nat)) : String → Option (List (String × (Nat × Nat))) :=
  fun w => if w = p.1 then some (setAssoc ((t p.1).getD []) name p.2) else t w

/-- The method saveWords: for every word of the index, upsert the entry of
that word in the words collection, setting the field of this document to
the wordInfo pair. -/
def saveWords (table : String → Option (List (String × (Nat × Nat)))) (name : String)
    (index : List (String × (Nat × Nat))) : String → Option (List (String × (Nat × Nat))) :=
  index.foldl (saveStep name) table

/-- Append a word to the group of its first character, opening the group at
the end when absent. -/
def addToGroup : List (Char × List String) → Char → String → List (Char × List String)
  | [], c, w => [(c, [w])]
  | (k, ws) :: rest, c, w =>
    if k = c then (k, ws ++ [w]) :: rest else (k, ws) :: addToGroup rest c w

/-- One step of makeCompletions: file the word under its first character
(a word with no characters is left ungrouped). -/
def groupStep (m : List (Char × List String)) (w : String) : List (Char × List String) :=
  match w.data with
  | [] => m
  | c :: _ => addToGroup m c w

/-- The method makeCompletions: group the words by first character,
keys in first appearance order. -/
def makeCompletions (words : List String) : List (Char × List String) :=
  words.foldl groupStep []

/-- One replaceOne of updateCompletions: merge the group p.2 in front of
the stored words of the character p.1, deduplicated, and store the merge. -/
def complStep (t : Char → Option (List String)) (p : Char × List String) :
    Char → Option (List String) :=
  fun c => if c = p.1 then some (jsDedup (p.2 ++ (t p.1).getD [])) else t c

/-- The method updateCompletions: for every group, merge the new words in
front of the stored words of that character, deduplicated, and replace the
stored entry. -/
def updateCompletions (table : Char → Option (List String)) (words : List String) :
    Char → Option (List String) :=
  (makeCompletions words).foldl complStep table

/-- The newline guard of addContent: append one trailing newline unless the
text already ends with one. -/
def ensureNL (t : String) : String :=
  if t.data.getLast? = some '\n' then t else t.push '\n'

/-- addContent: persist the newline-terminated content under the name,
upsert the per-word index of the content into the words collection and
merge the indexed words into the completions collection. -/
def addContent (s : DFState) (name text : String) : DFState :=
  let c := ensureNL text
  let index := makeIndex s.noiseWords c
  { s with
    contents := fun x => if x = name then some c else s.contents x
    wordsTable := saveWords s.wordsTable name index
    completionsTable := updateCompletions s.completionsTable (index.map Prod.fst) }

/-- docContent: return the stored content, or fail with a NOT_FOUND error
naming the document. -/
def docContent (s : DFState) (name : String) : Except DFErr String :=
  match s.contents name with
  | some contents => Except.ok contents
  | none => Except.error ⟨"NOT_FOUND", "doc " ++ name ++ " not found"⟩

/-- A search result: document name, total score and excerpt lines. -/
structure Result where
  name : String
  score : Nat
  lines : List String
deriving DecidableEq, Repr

/-- contents.lastIndexOf of a newline at or before offset o, plus one:
the start of the line containing offset o. -/
def lineStart (cs : List Char) (o : Nat) : Nat :=
  ((cs.take (o + 1)).foldl
    (fun st c => (if c = '\n' then st.2 + 1 else st.1, st.2 + 1)) ((0 : Nat), (0 : Nat))).1

/-- contents.indexOf of a newline at or after index i, plus one; zero when
there is none (JS indexOf yields minus one). -/
def lineEndIdx (cs : List Char) (i : Nat) : Nat :=
  match (cs.drop i).findIdx? (fun c => c = '\n') with
  | some j => i + j + 1
  | none => 0

/-- JS String.prototype.substring: clamp both indices to the length and
swap them when given in descending order. -/
def jsSubstring (cs : List Char) (a b : Nat) : String :=
  let a2 := min a cs.length
  let b2 := min b cs.length
  String.mk ((cs.drop (min a2 b2)).take (max a2 b2 - min a2 b2))

/-- OffsetResult.result: deduplicate the line starts of the collected
offsets, sort them ascending and cut each line up to and including its
newline. -/
def offsetResult (name : String) (score : Nat) (offsets : List Nat) (contents : String) :
    Result :=
  let starts := jsDedup (offsets.map (lineStart contents.data))
  let sorted := isort (fun a b => Nat.ble a b) starts
  ⟨name, score, sorted.map (fun i => jsSubstring contents.data i (lineEndIdx contents.data i))⟩

/-- compareResults as a boolean comparison: higher score first, ties by
ascending document name. -/
def resultLe (r1 r2 : Result) : Bool :=
  Nat.blt r2.score r1.score || (r2.score == r1.score && strLe r1.name r2.name)

/-- Append a wordInfo to the group of a document, opening the group at the
end when absent (the Map in findDocs). -/
def pushDoc : List (String × List (Nat × Nat)) → String → (Nat × Nat) →
    List (String × List (Nat × Nat))
  | [], n, i => [(n, [i])]
  | (k, l) :: rest, n, i =>
    if k = n then (k, l ++ [i]) :: rest else (k, l) :: pushDoc rest n i

/-- Push every document binding of one inverted-index entry into the
per-document map. -/
def processEntry (docs : List (String × List (Nat × Nat)))
    (entry : List (String × (Nat × Nat))) : List (String × List (Nat × Nat)) :=
  entry.foldl (fun d p => pushDoc d p.1 p.2) docs

/-- The method findDocs: map each document to the wordInfo pairs of the
query terms that mention it, in term order. -/
def findDocs (s : DFState) (terms : List String) : List (String × List (Nat × Nat)) :=
  terms.foldl (fun docs t => processEntry docs ((s.wordsTable t).getD [])) []

/-- The score reduce of find: sum of the counts of the wordInfo pairs. -/
def sumCounts (infos : List (Nat × Nat)) : Nat :=
  infos.foldl (fun a wi => a + wi.1) 0

/-- The result loop of find: fetch each matched document and build its
Result; a missing document aborts with the NOT_FOUND error. -/
def buildResults (s : DFState) : List (String × List (Nat × Nat)) → Except DFErr (List Result)
  | [] => Except.ok []
  | (name, infos) :: rest =>
    match docContent s name with
    | Except.error e => Except.error e
    | Except.ok doc =>
      match buildResults s rest with
      | Except.error e => Except.error e
      | Except.ok rs =>
        Except.ok (offsetResult name (sumCounts infos) (infos.map (fun wi => wi.2)) doc :: rs)

/-- The method find: deduplicate the non-noise normalized query terms,
collect the matching documents, build one Result each and sort them by
compareResults. -/
def find (s : DFState) (text : String) : Except DFErr (List Result) :=
  match buildResults s (findDocs s (jsDedup (wordsOf s.noiseWords text))) with
  | Except.error e => Except.error e
  | Except.ok results => Except.ok (isort resultLe results)

/-- The final whitespace-delimited token of the text: the maximal
non-whitespace suffix. -/
def lastToken (text : String) : String :=
  String.mk ((text.data.reverse.takeWhile (fun c => !c.isWhitespace)).reverse)

/-- The guard regex of complete: the last character is an ASCII letter. -/
def lastCharAlpha (text : String) : Bool :=
  match text.data.getLast? with
  | some c => isAsciiAlpha c
  | none => false

/-- The method complete: guard on the last character, normalizeWord the last
token without noise filtering, look up the completion entry of its first
character, sort it and keep the words extending the token. -/
def complete (s : DFState) (text : String) : List String :=
  if lastCharAlpha text then
    (isort strLe
      (match (normalizeWord (lastToken text)).data.head? with
        | some c => (s.completionsTable c).getD []
        | none => [])).filter
      (fun w => (normalizeWord (lastToken text)).data.isPrefixOf w.data)
  else []

/-- All normalized words of a text, with no noise filtering: the
specification reading of the phrase normalized words of the text. -/
def normalizedWordsOf (text : String) : List String :=
  (tokenize text).filterMap (fun p =>
    let w := normalizeWord p.1
    if w = "" then none else some w)

/-- Whether the inverted-index entry of word w mentions document name. -/
def docInWord (s : DFState) (w name : String) : Bool :=
  match s.wordsTable w with
  | some e => e.any (fun p => p.1 = name)
  | none => false

/-- The stored occurrence count a term contributes to a document: the sum
of the counts the entry of the term records under that document name. -/
def countFor (s : DFState) (t name : String) : Nat :=
  sumCounts ((((s.wordsTable t).getD []).filter (fun p => p.1 = name)).map (fun p => p.2))

/-- The specification score of a document for a query: the sum over the
deduplicated non-noise query terms of the stored counts for the document. -/
def scoreSpec (s : DFState) (text name : String) : Nat :=
  ((jsDedup (wordsOf s.noiseWords text)).map (fun t => countFor s t name)).sum

/-- A well-formed index word: nonempty and all lowercase ASCII letters. -/
def isLowerWord (w : String) : Bool := !w.data.isEmpty && w.data.all isLowerAlpha

/-- Well-formedness of a state: inverted-index keys, noise words (table and
cache) and completion words are normalized words, and every completion
entry holds words starting with its key character. -/
def WF (s : DFState) : Prop :=
  (∀ w e, s.wordsTable w = some e → isLowerWord w = true) ∧
  (∀ w, w ∈ s.noiseWords → isLowerWord w = true) ∧
  (∀ w, w ∈ s.noiseTable → isLowerWord w = true) ∧
  (∀ c l, s.completionsTable c = some l →
    ∀ w, w ∈ l → isLowerWord w = true ∧ w.data.head? = some c)

/-- The wordInfo pairs the query terms contribute to one document, in term
order: the specification reading of the accumulation of findDocs. -/
def specInfos (s : DFState) : List String → String → List (Nat × Nat)
  | [], _ => []
  | t :: ts, m =>
    ((((s.wordsTable t).getD []).filter (fun p => p.1 = m)).map (fun p => p.2)) ++
      specInfos s ts m

/-- Decidable equality of Except values with decidable components. -/
def exceptDecEq {ε α : Type} [DecidableEq ε] [DecidableEq α] :
    (a b : Except ε α) → Decidable (a = b)
  | Except.ok a, Except.ok b =>
    match decEq a b with
    | isTrue h => isTrue (h ▸ rfl)
    | isFalse h => isFalse (fun hh => h (Except.ok.inj hh))
  | Except.ok _, Except.error _ => isFalse (fun hh => Except.noConfusion hh)
  | Except.error _, Except.ok _ => isFalse (fun hh => Except.noConfusion hh)
  | Except.error e, Except.error f =>
    match decEq e f with
    | isTrue h => isTrue (h ▸ rfl)
    | isFalse h => isFalse (fun hh => h (Except.error.inj hh))

instance {ε α : Type} [DecidableEq ε] [DecidableEq α] : DecidableEq (Except ε α) :=
  exceptDecEq

/-- The lookup of the most recent binding of a key: the one a sequence of
JS object field assignments leaves in force. -/
def lastLookup {β : Type} (l : List (String × β)) (k : String) : Option β :=
  lookupA l.reverse k

/-- The wordInfo list a per-document map holds for one document, the empty
list when the document has no group. -/
def groupGet (docs : List (String × List (Nat × Nat))) (m : String) : List (Nat × Nat) :=
  (lookupA docs m).getD []

/-! ### Association list lemmas -/

theorem lookupA_eq_none {α β : Type} [DecidableEq α] :
    ∀ (l : List (α × β)) (a : α), lookupA l a = none ↔ ¬ a ∈ l.map Prod.fst := by
  intro l
  induction l with
  | nil => intro a; simp [lookupA]
  | cons p ps ih =>
    intro a
    by_cases h : p.1 = a
    · simp [lookupA, h]
    · simp [lookupA, h, ih a, Ne.symm h]

theorem lookupA_mem_keys {α β : Type} [DecidableEq α] {l : List (α × β)} {a : α} {v : β}
    (h : lookupA l a = some v) : a ∈ l.map Prod.fst := by
  by_contra hm
  rw [← lookupA_eq_none l a] at hm
  rw [h] at hm
  exact Option.noConfusion hm

theorem lookupA_append {α β : Type} [DecidableEq α] :
    ∀ (l₁ l₂ : List (α × β)) (a : α),
    lookupA (l₁ ++ l₂) a =
      match lookupA l₁ a with
      | some v => some v
      | none => lookupA l₂ a := by
  intro l₁
  induction l₁ with
  | nil => intro l₂ a; simp [lookupA]
  | cons p ps ih =>
    intro l₂ a
    by_cases h : p.1 = a
    · simp [lookupA, h]
    · simp [lookupA, h, ih l₂ a]

theorem lookupA_of_mem_of_nodup {α β : Type} [DecidableEq α] :
    ∀ (l : List (α × β)) (k : α) (v : β), (l.map Prod.fst).Nodup → (k, v) ∈ l →
    lookupA l k = some v := by
  intro l
  induction l with
  | nil => intro k v _ hm; exact absurd hm (List.not_mem_nil _)
  | cons p ps ih =>
    intro k v hnd hm
    rw [List.map_cons, List.nodup_cons] at hnd
    rcases List.mem_cons.mp hm with h | h
    · rw [← h]
      simp [lookupA]
    · have hk : ¬ p.1 = k := by
        intro hpk
        exact hnd.1 (hpk ▸ (List.mem_map.mpr ⟨(k, v), h, rfl⟩))
      simp [lookupA, hk, ih k v hnd.2 h]

theorem mem_keys_setAssoc {α β : Type} [DecidableEq α] :
    ∀ (l : List (α × β)) (k : α) (v : β) (x : α),
    x ∈ (setAssoc l k v).map Prod.fst ↔ x ∈ l.map Prod.fst ∨ x = k := by
  intro l
  induction l with
  | nil => intro k v x; simp [setAssoc]
  | cons p ps ih =>
    intro k v x
    by_cases h : p.1 = k
    · simp only [setAssoc, if_pos h, List.map_cons, List.mem_cons]
      rw [← h]
      constructor
      · rintro (h1 | h1)
        · exact Or.inr h1
        · exact Or.inl (Or.inr h1)
      · rintro ((h1 | h1) | h1)
        · exact Or.inl h1
        · exact Or.inr h1
        · exact Or.inl (h ▸ h1)
    · simp only [setAssoc, if_neg h, List.map_cons, List.mem_cons, ih k v x]
      tauto

theorem setAssoc_setAssoc {α β : Type} [DecidableEq α] :
    ∀ (l : List (α × β)) (k : α) (a b : β),
    setAssoc (setAssoc l k a) k b = setAssoc l k b := by
  intro l
  induction l with
  | nil => intro k a b; simp [setAssoc]
  | cons p ps ih =>
    intro k a b
    by_cases h : p.1 = k
    · simp [setAssoc, h]
    · simp [setAssoc, h, ih]

theorem any_setAssoc_self {β : Type} :
    ∀ (l : List (String × β)) (k : String) (v : β),
    (setAssoc l k v).any (fun p => p.1 = k) = true := by
  intro l
  induction l with
  | nil => intro k v; simp [setAssoc]
  | cons p ps ih =>
    intro k v
    by_cases h : p.1 = k
    · simp [setAssoc, h]
    · simp only [setAssoc, if_neg h, List.any_cons]
      rw [ih k v]
      simp

/-! ### Deduplication lemmas -/

theorem dedupAux_congr {α : Type} [DecidableEq α] :
    ∀ (l s₁ s₂ : List α), (∀ x, x ∈ s₁ ↔ x ∈ s₂) → dedupAux l s₁ = dedupAux l s₂ := by
  intro l
  induction l with
  | nil => intros; rfl
  | cons x xs ih =>
    intro s₁ s₂ h
    simp only [dedupAux]
    by_cases hx : x ∈ s₁
    · rw [if_pos hx, if_pos ((h x).mp hx), ih _ _ h]
    · rw [if_neg hx, if_neg (fun hx2 => hx ((h x).mpr hx2))]
      rw [ih (x :: s₁) (x :: s₂) (fun y => by simp [h y])]

theorem mem_dedupAux {α : Type} [DecidableEq α] :
    ∀ (l s : List α) (x : α), x ∈ dedupAux l s ↔ x ∈ l ∧ ¬ x ∈ s := by
  intro l
  induction l with
  | nil => intro s x; simp [dedupAux]
  | cons y ys ih =>
    intro s x
    simp only [dedupAux]
    by_cases hy : y ∈ s
    · rw [if_pos hy, ih]
      simp only [List.mem_cons]
      constructor
      · rintro ⟨h1, h2⟩; exact ⟨Or.inr h1, h2⟩
      · rintro ⟨h1 | h1, h2⟩
        · exact absurd (h1 ▸ hy) h2
        · exact ⟨h1, h2⟩
    · rw [if_neg hy]
      simp only [List.mem_cons, ih]
      constructor
      · rintro (h1 | ⟨h1, h2⟩)
        · exact ⟨Or.inl h1, h1 ▸ hy⟩
        · exact ⟨Or.inr h1, fun hs => h2 (Or.inr hs)⟩
      · rintro ⟨h1 | h1, h2⟩
        · exact Or.inl h1
        · by_cases hxy : x = y
          · exact Or.inl hxy
          · exact Or.inr ⟨h1, fun hs => hs.elim hxy h2⟩

theorem dedupAux_append {α : Type} [DecidableEq α] :
    ∀ (l₁ l₂ s : List α), dedupAux (l₁ ++ l₂) s = dedupAux l₁ s ++ dedupAux l₂ (l₁ ++ s) := by
  intro l₁
  induction l₁ with
  | nil => intro l₂ s; simp [dedupAux]
  | cons x xs ih =>
    intro l₂ s
    simp only [List.cons_append, dedupAux, List.append_eq_has_append]
    by_cases hx : x ∈ s
    · rw [if_pos hx, ih]
      rw [dedupAux_congr l₂ (xs ++ s) (x :: xs ++ s) (fun y => by
        simp only [List.cons_append, List.mem_cons, List.mem_append]
        constructor
        · rintro (h | h)
          · exact Or.inr (Or.inl h)
          · exact Or.inr (Or.inr h)
        · rintro (h | h | h)
          · exact Or.inr (h ▸ hx)
          · exact Or.inl h
          · exact Or.inr h)]
      rw [if_pos hx]
      simp
    · rw [if_neg hx, ih]
      rw [dedupAux_congr l₂ (xs ++ x :: s) (x :: xs ++ s) (fun y => by
        simp only [List.cons_append, List.mem_cons, List.mem_append]
        tauto)]
      rw [if_neg hx]
      simp

theorem dedupAux_eq_nil {α : Type} [DecidableEq α] :
    ∀ (l s : List α), (∀ x ∈ l, x ∈ s) → dedupAux l s = [] := by
  intro l
  induction l with
  | nil => intros; rfl
  | cons x xs ih =>
    intro s h
    simp only [dedupAux]
    rw [if_pos (h x (List.mem_cons_self x xs))]
    exact ih s (fun y hy => h y (List.mem_cons.mpr (Or.inr hy)))

theorem dedupAux_nodup {α : Type} [DecidableEq α] :
    ∀ (l s : List α), (dedupAux l s).Nodup := by
  intro l
  induction l with
  | nil => intro s; exact List.nodup_nil
  | cons x xs ih =>
    intro s
    simp only [dedupAux]
    by_cases hx : x ∈ s
    · rw [if_pos hx]; exact ih s
    · rw [if_neg hx]
      refine List.nodup_cons.mpr ⟨?_, ih (x :: s)⟩
      intro hmem
      exact ((mem_dedupAux xs (x :: s) x).mp hmem).2 (List.mem_cons_self x s)

theorem dedupAux_of_nodup {α : Type} [DecidableEq α] :
    ∀ (l s : List α), l.Nodup → (∀ x ∈ l, ¬ x ∈ s) → dedupAux l s = l := by
  intro l
  induction l with
  | nil => intros; rfl
  | cons x xs ih =>
    intro s hnd h
    simp only [dedupAux]
    rw [if_neg (h x (List.mem_cons_self x xs))]
    rw [List.nodup_cons] at hnd
    rw [ih (x :: s) hnd.2 (fun y hy => by
      intro hs
      rcases List.mem_cons.mp hs with h1 | h1
      · exact hnd.1 (h1 ▸ hy)
      · exact h y (List.mem_cons.mpr (Or.inr hy)) h1)]

theorem mem_jsDedup {α : Type} [DecidableEq α] (l : List α) (x : α) :
    x ∈ jsDedup l ↔ x ∈ l := by
  unfold jsDedup
  rw [mem_dedupAux]
  simp

theorem jsDedup_nodup {α : Type} [DecidableEq α] (l : List α) : (jsDedup l).Nodup :=
  dedupAux_nodup l []

theorem jsDedup_merge {α : Type} [DecidableEq α] (ws p : List α) :
    jsDedup (ws ++ jsDedup (ws ++ p)) = jsDedup (ws ++ p) := by
  unfold jsDedup
  rw [dedupAux_append, dedupAux_append]
  rw [List.append_nil]
  congr 1
  have hsub : ∀ x ∈ dedupAux ws [], x ∈ ws := by
    intro x hx
    exact ((mem_dedupAux ws [] x).mp hx).1
  rw [dedupAux_append]
  rw [dedupAux_eq_nil (dedupAux ws []) ws hsub]
  rw [List.nil_append]
  rw [dedupAux_congr (dedupAux p ws) (dedupAux ws [] ++ ws) ws (fun y => by
    simp only [List.mem_append]
    constructor
    · rintro (h | h)
      · exact hsub y h
      · exact h
    · intro h; exact Or.inr h)]
  exact dedupAux_of_nodup (dedupAux p ws) ws (dedupAux_nodup p ws)
    (fun x hx => ((mem_dedupAux p ws x).mp hx).2)

/-! ### Sorting lemmas -/

theorem mem_orderedIns {α : Type} (le : α → α → Bool) (x : α) :
    ∀ (l : List α) (y : α), y ∈ orderedIns le x l ↔ y = x ∨ y ∈ l := by
  intro l
  induction l with
  | nil => intro y; simp [orderedIns]
  | cons z zs ih =>
    intro y
    simp only [orderedIns]
    by_cases h : le x z = true
    · rw [if_pos h]; simp
    · rw [if_neg h]
      simp only [List.mem_cons, ih]
      tauto

theorem orderedIns_perm {α : Type} (le : α → α → Bool) (x : α) :
    ∀ l : List α, (orderedIns le x l).Perm (x :: l) := by
  intro l
  induction l with
  | nil => simp [orderedIns]
  | cons z zs ih =>
    simp only [orderedIns]
    by_cases h : le x z = true
    · rw [if_pos h]
    · rw [if_neg h]
      exact ((ih.cons z).trans (List.Perm.swap x z zs))

theorem isort_perm {α : Type} (le : α → α → Bool) :
    ∀ l : List α, (isort le l).Perm l := by
  intro l
  induction l with
  | nil => exact List.Perm.refl []
  | cons x xs ih =>
    have : isort le (x :: xs) = orderedIns le x (isort le xs) := rfl
    rw [this]
    exact (orderedIns_perm le x (isort le xs)).trans (ih.cons x)

theorem orderedIns_pairwise {α : Type} (le : α → α → Bool)
    (htot : ∀ a b, le a b = true ∨ le b a = true)
    (htr : ∀ a b c, le a b = true → le b c = true → le a c = true) (x : α) :
    ∀ l : List α, List.Pairwise (fun a b => le a b = true) l →
    List.Pairwise (fun a b => le a b = true) (orderedIns le x l) := by
  intro l
  induction l with
  | nil => intro _; simp [orderedIns]
  | cons z zs ih =>
    intro hp
    rw [List.pairwise_cons] at hp
    simp only [orderedIns]
    by_cases h : le x z = true
    · rw [if_pos h]
      refine List.pairwise_cons.mpr ⟨?_, List.pairwise_cons.mpr hp⟩
      intro y hy
      rcases List.mem_cons.mp hy with h1 | h1
      · exact h1 ▸ h
      · exact htr x z y h (hp.1 y h1)
    · rw [if_neg h]
      refine List.pairwise_cons.mpr ⟨?_, ih hp.2⟩
      intro y hy
      rcases (mem_orderedIns le x zs y).mp hy with h1 | h1
      · rcases htot x z with h2 | h2
        · exact absurd h2 h
        · exact h1 ▸ h2
      · exact hp.1 y h1

theorem isort_pairwise {α : Type} (le : α → α → Bool)
    (htot : ∀ a b, le a b = true ∨ le b a = true)
    (htr : ∀ a b c, le a b = true → le b c = true → le a c = true) :
    ∀ l : List α, List.Pairwise (fun a b => le a b = true) (isort le l) := by
  intro l
  induction l with
  | nil => simp [isort]
  | cons x xs ih =>
    have : isort le (x :: xs) = orderedIns le x (isort le xs) := rfl
    rw [this]
    exact orderedIns_pairwise le htot htr x (isort le xs) ih

/-! ### Comparison lemmas -/

theorem charListLe_total : ∀ a b : List Char, charListLe a b = true ∨ charListLe b a = true := by
  intro a
  induction a with
  | nil => intro b; left; rfl
  | cons x xs ih =>
    intro b
    cases b with
    | nil => right; rfl
    | cons y ys =>
      simp only [charListLe]
      by_cases h1 : x.toNat < y.toNat
      · left; rw [if_pos h1]
      · by_cases h2 : y.toNat < x.toNat
        · right; rw [if_pos h2]
        · rw [if_neg h1, if_neg h2, if_neg h2, if_neg h1]
          exact ih ys

theorem charListLe_trans :
    ∀ a b c : List Char, charListLe a b = true → charListLe b c = true →
    charListLe a c = true := by
  intro a
  induction a with
  | nil => intro b c _ _; rfl
  | cons x xs ih =>
    intro b c hab hbc
    cases b with
    | nil => exact absurd hab (by simp [charListLe])
    | cons y ys =>
      cases c with
      | nil => exact absurd hbc (by simp [charListLe])
      | cons z zs =>
        simp only [charListLe] at hab hbc ⊢
        by_cases h1 : x.toNat < y.toNat
        · by_cases h2 : y.toNat < z.toNat
          · rw [if_pos (Nat.lt_trans h1 h2)]
          · by_cases h3 : z.toNat < y.toNat
            · rw [if_neg h2, if_pos h3] at hbc
              exact absurd hbc (by simp)
            · have hyz : y.toNat = z.toNat := Nat.le_antisymm (Nat.not_lt.mp h3) (Nat.not_lt.mp h2)
              rw [if_pos (hyz ▸ h1)]
        · by_cases h4 : y.toNat < x.toNat
          · rw [if_neg h1, if_pos h4] at hab
            exact absurd hab (by simp)
          · have hxy : x.toNat = y.toNat := Nat.le_antisymm (Nat.not_lt.mp h4) (Nat.not_lt.mp h1)
            rw [if_neg h1, if_neg h4] at hab
            by_cases h2 : y.toNat < z.toNat
            · rw [if_pos (hxy ▸ h2)]
            · by_cases h3 : z.toNat < y.toNat
              · rw [if_neg h2, if_pos h3] at hbc
                exact absurd hbc (by simp)
              · rw [if_neg h2, if_neg h3] at hbc
                rw [if_neg (hxy ▸ h2), if_neg (by omega : ¬ z.toNat < x.toNat)]
                exact ih ys zs hab hbc

theorem strLe_total (a b : String) : strLe a b = true ∨ strLe b a = true :=
  charListLe_total a.data b.data

theorem strLe_trans {a b c : String} (h1 : strLe a b = true) (h2 : strLe b c = true) :
    strLe a c = true :=
  charListLe_trans a.data b.data c.data h1 h2

theorem resultLe_iff (r1 r2 : Result) :
    resultLe r1 r2 = true ↔
      r2.score < r1.score ∨ (r2.score = r1.score ∧ strLe r1.name r2.name = true) := by
  unfold resultLe
  rw [Bool.or_eq_true, Bool.and_eq_true]
  rw [Nat.blt_eq]
  rw [beq_iff_eq]

theorem resultLe_total (a b : Result) : resultLe a b = true ∨ resultLe b a = true := by
  rw [resultLe_iff, resultLe_iff]
  rcases Nat.lt_trichotomy b.score a.score with h | h | h
  · exact Or.inl (Or.inl h)
  · rcases strLe_total a.name b.name with h2 | h2
    · exact Or.inl (Or.inr ⟨h, h2⟩)
    · exact Or.inr (Or.inr ⟨h.symm, h2⟩)
  · exact Or.inr (Or.inl h)

theorem resultLe_trans (a b c : Result) (h1 : resultLe a b = true) (h2 : resultLe b c = true) :
    resultLe a c = true := by
  rw [resultLe_iff] at h1 h2 ⊢
  rcases h1 with h1 | ⟨h1, h1s⟩
  · rcases h2 with h2 | ⟨h2, _⟩
    · exact Or.inl (Nat.lt_trans h2 h1)
    · exact Or.inl (h2 ▸ h1)
  · rcases h2 with h2 | ⟨h2, h2s⟩
    · exact Or.inl (h1 ▸ h2)
    · exact Or.inr ⟨h2.trans h1, strLe_trans h1s h2s⟩

theorem natBle_total (a b : Nat) : Nat.ble a b = true ∨ Nat.ble b a = true := by
  rcases Nat.le_total a b with h | h
  · exact Or.inl (Nat.ble_eq.mpr h)
  · exact Or.inr (Nat.ble_eq.mpr h)

theorem natBle_trans (a b c : Nat) (h1 : Nat.ble a b = true) (h2 : Nat.ble b c = true) :
    Nat.ble a c = true :=
  Nat.ble_eq.mpr (Nat.le_trans (Nat.ble_eq.mp h1) (Nat.ble_eq.mp h2))

/-! ### Tokenization and word extraction lemmas -/

theorem flushWord_eq (noise : List String) (acc : List Char) (st : Nat) :
    flushWord noise acc st = (flushTok acc st).filterMap (normFilter noise) := by
  cases acc with
  | nil => rfl
  | cons a as =>
    simp only [flushWord, flushTok, List.filterMap_cons, List.filterMap_nil, normFilter,
      List.reverse_cons]
    by_cases h1 : normalizeWord (String.mk (as.reverse ++ [a])) = ""
    · simp [h1]
    · by_cases h2 : normalizeWord (String.mk (as.reverse ++ [a])) ∈ noise
      · simp [h1, h2]
      · simp [h1, h2]

theorem wordsLowAux_eq (noise : List String) :
    ∀ (cs : List Char) (i : Nat) (acc : List Char) (st : Nat),
    wordsLowAux noise cs i acc st = (tokenizeAux cs i acc st).filterMap (normFilter noise) := by
  intro cs
  induction cs with
  | nil =>
    intro i acc st
    cases acc with
    | nil => rfl
    | cons a as => exact flushWord_eq noise (a :: as) st
  | cons c cs ih =>
    intro i acc st
    cases acc with
    | nil =>
      by_cases hw : c.isWhitespace = true
      · simp only [wordsLowAux, tokenizeAux, if_pos hw]
        exact ih (i + 1) [] st
      · simp only [wordsLowAux, tokenizeAux, if_neg hw]
        exact ih (i + 1) [c] i
    | cons a as =>
      by_cases hw : c.isWhitespace = true
      · simp only [wordsLowAux, tokenizeAux, if_pos hw, List.filterMap_append]
        rw [flushWord_eq noise (a :: as) st, ih (i + 1) [] st]
      · simp only [wordsLowAux, tokenizeAux, if_neg hw]
        exact ih (i + 1) (c :: a :: as) st

theorem wordsLow_eq (noise : List String) (t : String) :
    wordsLow noise t = (tokenize t).filterMap (normFilter noise) :=
  wordsLowAux_eq noise t.data 0 [] 0

theorem normFilter_eq_some {noise : List String} {p : String × Nat} {q : String × Nat} :
    normFilter noise p = some q ↔
      normalizeWord p.1 = q.1 ∧ q.2 = p.2 ∧ ¬ q.1 = "" ∧ ¬ q.1 ∈ noise := by
  unfold normFilter
  by_cases h1 : normalizeWord p.1 = "" ∨ normalizeWord p.1 ∈ noise
  · rw [if_pos h1]
    constructor
    · intro hh; exact Option.noConfusion hh
    · rintro ⟨he, _, hne, hnn⟩
      rcases h1 with h1 | h1
      · exact (hne (he ▸ h1)).elim
      · exact (hnn (he ▸ h1)).elim
  · rw [if_neg h1]
    push_neg at h1
    constructor
    · intro hh
      have := Option.some.inj hh
      rw [← this]
      exact ⟨rfl, rfl, h1.1, h1.2⟩
    · rintro ⟨he, h2, _, _⟩
      rw [he, ← h2, Prod.mk.eta]

theorem mem_wordsOf (noise : List String) (t : String) (w : String) :
    w ∈ wordsOf noise t ↔
      (∃ p ∈ tokenize t, normalizeWord p.1 = w) ∧ ¬ w = "" ∧ ¬ w ∈ noise := by
  unfold wordsOf
  rw [wordsLow_eq]
  constructor
  · intro h
    rcases List.mem_map.mp h with ⟨q, hq, hqw⟩
    rcases List.mem_filterMap.mp hq with ⟨p, hp, hpq⟩
    rcases normFilter_eq_some.mp hpq with ⟨he, _, hne, hnn⟩
    exact ⟨⟨p, hp, hqw ▸ he⟩, hqw ▸ hne, hqw ▸ hnn⟩
  · rintro ⟨⟨p, hp, he⟩, hne, hnn⟩
    refine List.mem_map.mpr ⟨(w, p.2), List.mem_filterMap.mpr ⟨p, hp, ?_⟩, rfl⟩
    exact normFilter_eq_some.mpr ⟨he, rfl, hne, hnn⟩

theorem mem_normalizedWordsOf (t : String) (w : String) :
    w ∈ normalizedWordsOf t ↔
      (∃ p ∈ tokenize t, normalizeWord p.1 = w) ∧ ¬ w = "" := by
  unfold normalizedWordsOf
  constructor
  · intro h
    rcases List.mem_filterMap.mp h with ⟨p, hp, hpq⟩
    by_cases h1 : normalizeWord p.1 = ""
    · rw [if_pos h1] at hpq; exact Option.noConfusion hpq
    · rw [if_neg h1] at hpq
      have := Option.some.inj hpq
      exact ⟨⟨p, hp, this⟩, this ▸ h1⟩
  · rintro ⟨⟨p, hp, he⟩, hne⟩
    refine List.mem_filterMap.mpr ⟨p, hp, ?_⟩
    rw [if_neg (he ▸ hne)]
    rw [he]

theorem isLowerWord_normalizeWord (t : String) (h : ¬ normalizeWord t = "") :
    isLowerWord (normalizeWord t) = true := by
  unfold isLowerWord
  rw [Bool.and_eq_true]
  constructor
  · cases hl : (normalizeWord t).data with
    | nil => exact absurd (String.ext hl) h
    | cons c cs => rfl
  · rw [List.all_eq_true]
    intro x hx
    have : (normalizeWord t).data =
        (stem (String.mk (t.data.map Char.toLower))).data.filter isLowerAlpha := rfl
    rw [this] at hx
    exact List.of_mem_filter hx

theorem wordsOf_lower (noise : List String) (t : String) :
    ∀ w ∈ wordsOf noise t, isLowerWord w = true := by
  intro w hw
  rcases (mem_wordsOf noise t w).mp hw with ⟨⟨p, _, he⟩, hne, _⟩
  rw [← he]
  exact isLowerWord_normalizeWord p.1 (he ▸ hne)

/-! ### saveWords lemmas -/

theorem saveWords_apply (name : String) :
    ∀ (idx : List (String × (Nat × Nat)))
      (table : String → Option (List (String × (Nat × Nat)))) (w : String),
    saveWords table name idx w =
      match lastLookup idx w with
      | none => table w
      | some v => some (setAssoc ((table w).getD []) name v) := by
  intro idx
  induction idx with
  | nil => intro t w; rfl
  | cons p rest ih =>
    intro t w
    have hstep : saveWords t name (p :: rest) = saveWords (saveStep name t p) name rest := rfl
    rw [hstep, ih]
    unfold lastLookup
    rw [List.reverse_cons, lookupA_append]
    cases h : lookupA rest.reverse w with
    | some v =>
      simp only [h]
      by_cases hw : w = p.1
      · subst hw
        simp [saveStep, setAssoc_setAssoc]
      · simp only [saveStep, if_neg hw]
    | none =>
      simp only [h]
      by_cases hw : p.1 = w
      · simp only [lookupA, if_pos hw]
        subst hw
        simp [saveStep]
      · simp only [lookupA, if_neg hw]
        have hw2 : ¬ w = p.1 := fun hh => hw hh.symm
        simp [saveStep, hw2]

theorem saveWords_idem (t : String → Option (List (String × (Nat × Nat))))
    (n : String) (idx : List (String × (Nat × Nat))) :
    saveWords (saveWords t n idx) n idx = saveWords t n idx := by
  funext w
  rw [saveWords_apply, saveWords_apply]
  cases h : lastLookup idx w with
  | none => rfl
  | some v =>
    simp only [Option.getD_some]
    rw [setAssoc_setAssoc]

/-! ### makeIndex lemmas -/

theorem mem_keys_bumpWord (idx : List (String × (Nat × Nat))) (w : String) (off : Nat)
    (x : String) :
    x ∈ (bumpWord idx w off).map Prod.fst ↔ x ∈ idx.map Prod.fst ∨ x = w := by
  unfold bumpWord
  cases h : lookupA idx w with
  | some ci => exact mem_keys_setAssoc idx w (ci.1 + 1, ci.2) x
  | none => simp

theorem mem_keys_bumpFold :
    ∀ (ps : List (String × Nat)) (idx : List (String × (Nat × Nat))) (x : String),
    x ∈ ((ps.foldl (fun i p => bumpWord i p.1 p.2) idx).map Prod.fst) ↔
      x ∈ idx.map Prod.fst ∨ x ∈ ps.map Prod.fst := by
  intro ps
  induction ps with
  | nil => intro idx x; simp
  | cons p ps ih =>
    intro idx x
    have hstep : (p :: ps).foldl (fun i q => bumpWord i q.1 q.2) idx =
        ps.foldl (fun i q => bumpWord i q.1 q.2) (bumpWord idx p.1 p.2) := rfl
    rw [hstep, ih, mem_keys_bumpWord]
    simp only [List.map_cons, List.mem_cons]
    tauto

theorem mem_keys_makeIndex (noise : List String) (c : String) (x : String) :
    x ∈ (makeIndex noise c).map Prod.fst ↔ x ∈ wordsOf noise c := by
  unfold makeIndex
  rw [mem_keys_bumpFold]
  unfold wordsOf
  simp

/-! ### Completion table lemmas -/

theorem mem_keys_addToGroup :
    ∀ (m : List (Char × List String)) (c : Char) (w : String) (x : Char),
    x ∈ (addToGroup m c w).map Prod.fst ↔ x ∈ m.map Prod.fst ∨ x = c := by
  intro m
  induction m with
  | nil => intro c w x; simp [addToGroup]
  | cons q rest ih =>
    intro c w x
    obtain ⟨k, ws⟩ := q
    simp only [addToGroup]
    by_cases hk : k = c
    · rw [if_pos hk]
      subst hk
      simp only [List.map_cons, List.mem_cons]
      tauto
    · rw [if_neg hk]
      simp only [List.map_cons, List.mem_cons, ih]
      tauto

theorem keys_addToGroup_nodup :
    ∀ (m : List (Char × List String)) (c : Char) (w : String),
    (m.map Prod.fst).Nodup → ((addToGroup m c w).map Prod.fst).Nodup := by
  intro m
  induction m with
  | nil => intro c w _; simp [addToGroup]
  | cons q rest ih =>
    intro c w hnd
    obtain ⟨k, ws⟩ := q
    rw [List.map_cons, List.nodup_cons] at hnd
    simp only [addToGroup]
    by_cases hk : k = c
    · rw [if_pos hk]
      rw [List.map_cons, List.nodup_cons]
      exact hnd
    · rw [if_neg hk]
      rw [List.map_cons, List.nodup_cons]
      refine ⟨?_, ih c w hnd.2⟩
      intro hmem
      rcases (mem_keys_addToGroup rest c w k).mp hmem with h | h
      · exact hnd.1 h
      · exact hk h

theorem groupFold_keys_nodup :
    ∀ (l : List String) (m : List (Char × List String)),
    (m.map Prod.fst).Nodup → ((l.foldl groupStep m).map Prod.fst).Nodup := by
  intro l
  induction l with
  | nil => intro m h; exact h
  | cons w l ih =>
    intro m h
    have hstep : (w :: l).foldl groupStep m = l.foldl groupStep (groupStep m w) := rfl
    rw [hstep]
    refine ih (groupStep m w) ?_
    unfold groupStep
    cases w.data with
    | nil => exact h
    | cons c cs => exact keys_addToGroup_nodup m c w h

theorem makeCompletions_keys_nodup (ws : List String) :
    ((makeCompletions ws).map Prod.fst).Nodup :=
  groupFold_keys_nodup ws [] List.nodup_nil

theorem mem_addToGroup_val {Q : String → Char → Prop} :
    ∀ (m : List (Char × List String)) (c : Char) (w : String),
    (∀ p ∈ m, ∀ x ∈ p.2, Q x p.1) → Q w c →
    ∀ p ∈ addToGroup m c w, ∀ x ∈ p.2, Q x p.1 := by
  intro m
  induction m with
  | nil =>
    intro c w _ hq p hp x hx
    simp only [addToGroup, List.mem_singleton] at hp
    subst hp
    simp only [List.mem_singleton] at hx
    subst hx
    exact hq
  | cons q rest ih =>
    intro c w hm hq p hp x hx
    obtain ⟨k, ws⟩ := q
    simp only [addToGroup] at hp
    by_cases hk : k = c
    · rw [if_pos hk] at hp
      rcases List.mem_cons.mp hp with h | h
      · subst h
        rcases List.mem_append.mp hx with h2 | h2
        · exact hm (k, ws) (List.mem_cons_self _ _) x h2
        · rw [List.mem_singleton] at h2
          subst h2
          rw [hk]
          exact hq
      · exact hm p (List.mem_cons.mpr (Or.inr h)) x hx
    · rw [if_neg hk] at hp
      rcases List.mem_cons.mp hp with h | h
      · subst h
        exact hm (k, ws) (List.mem_cons_self _ _) x hx
      · exact ih c w (fun p2 hp2 => hm p2 (List.mem_cons.mpr (Or.inr hp2))) hq p h x hx

theorem groupFold_val {Q : String → Char → Prop} :
    ∀ (l : List String) (m : List (Char × List String)),
    (∀ p ∈ m, ∀ x ∈ p.2, Q x p.1) →
    (∀ w ∈ l, ∀ c, w.data.head? = some c → Q w c) →
    ∀ p ∈ l.foldl groupStep m, ∀ x ∈ p.2, Q x p.1 := by
  intro l
  induction l with
  | nil => intro m hm _; exact hm
  | cons w l ih =>
    intro m hm hl
    have hstep : (w :: l).foldl groupStep m = l.foldl groupStep (groupStep m w) := rfl
    rw [hstep]
    refine ih (groupStep m w) ?_ (fun v hv => hl v (List.mem_cons.mpr (Or.inr hv)))
    unfold groupStep
    cases hd : w.data with
    | nil => exact hm
    | cons c cs =>
      refine mem_addToGroup_val m c w hm ?_
      exact hl w (List.mem_cons_self _ _) c (by rw [hd]; rfl)

theorem makeCompletions_val (ws : List String) :
    ∀ p ∈ makeCompletions ws, ∀ x ∈ p.2, x ∈ ws ∧ x.data.head? = some p.1 := by
  intro p hp x hx
  exact groupFold_val (Q := fun x c => x ∈ ws ∧ x.data.head? = some c) ws []
    (fun p2 hp2 => absurd hp2 (List.not_mem_nil p2))
    (fun w hw c hc => ⟨hw, hc⟩) p hp x hx

theorem complFold_apply :
    ∀ (pairs : List (Char × List String)), (pairs.map Prod.fst).Nodup →
    ∀ (t : Char → Option (List String)) (c : Char),
    pairs.foldl complStep t c =
      match lookupA pairs c with
      | some ws => some (jsDedup (ws ++ (t c).getD []))
      | none => t c := by
  intro pairs
  induction pairs with
  | nil => intro _ t c; rfl
  | cons p rest ih =>
    intro hnd t c
    rw [List.map_cons, List.nodup_cons] at hnd
    have hstep : (p :: rest).foldl complStep t = rest.foldl complStep (complStep t p) := rfl
    rw [hstep, ih hnd.2]
    by_cases hc : p.1 = c
    · have hcr : lookupA rest c = none := by
        rw [lookupA_eq_none]
        intro hmem
        exact hnd.1 (hc.symm ▸ hmem)
      rw [hcr]
      simp only [lookupA, if_pos hc]
      unfold complStep
      rw [if_pos hc.symm, hc]
    · have h1 : complStep t p c = t c := by
        unfold complStep
        rw [if_neg (fun hh => hc hh.symm)]
      simp only [lookupA, if_neg hc]
      cases hr : lookupA rest c with
      | some ws => rw [h1]
      | none => rw [h1]

theorem updateCompletions_apply (t : Char → Option (List String)) (ws : List String)
    (c : Char) :
    updateCompletions t ws c =
      match lookupA (makeCompletions ws) c with
      | some l => some (jsDedup (l ++ (t c).getD []))
      | none => t c :=
  complFold_apply (makeCompletions ws) (makeCompletions_keys_nodup ws) t c

theorem updateCompletions_idem (t : Char → Option (List String)) (ws : List String) :
    updateCompletions (updateCompletions t ws) ws = updateCompletions t ws := by
  funext c
  rw [updateCompletions_apply, updateCompletions_apply]
  cases h : lookupA (makeCompletions ws) c with
  | none => simp only [h]
  | some l =>
    simp only [h, Option.getD_some]
    rw [jsDedup_merge]

/-! ### findDocs lemmas -/

theorem groupGet_pushDoc :
    ∀ (docs : List (String × List (Nat × Nat))) (n : String) (i : Nat × Nat) (m : String),
    groupGet (pushDoc docs n i) m =
      if m = n then groupGet docs m ++ [i] else groupGet docs m := by
  intro docs
  induction docs with
  | nil =>
    intro n i m
    by_cases h : m = n
    · subst h
      simp [pushDoc, groupGet, lookupA]
    · simp only [pushDoc, groupGet, lookupA]
      rw [if_neg (fun hh => h hh.symm), if_neg h]
  | cons q rest ih =>
    intro n i m
    obtain ⟨k, l⟩ := q
    simp only [pushDoc]
    by_cases hk : k = n
    · rw [if_pos hk]
      simp only [groupGet, lookupA]
      by_cases hm : k = m
      · rw [if_pos hm, if_pos hm]
        rw [if_pos (by rw [← hm, hk])]
        simp
      · rw [if_neg hm, if_neg hm]
        by_cases hmn : m = n
        · exact absurd (by rw [hmn, ← hk] : m = k) (fun hh => hm hh.symm)
        · rw [if_neg hmn]
    · rw [if_neg hk]
      simp only [groupGet, lookupA] at ih ⊢
      by_cases hm : k = m
      · rw [if_pos hm, if_pos hm]
        by_cases hmn : m = n
        · exact absurd (by rw [← hmn, ← hm] : k = n) hk
        · rw [if_neg hmn]
      · rw [if_neg hm, if_neg hm]
        exact ih n i m

theorem mem_keys_pushDoc :
    ∀ (docs : List (String × List (Nat × Nat))) (n : String) (i : Nat × Nat) (x : String),
    x ∈ (pushDoc docs n i).map Prod.fst ↔ x ∈ docs.map Prod.fst ∨ x = n := by
  intro docs
  induction docs with
  | nil => intro n i x; simp [pushDoc]
  | cons q rest ih =>
    intro n i x
    obtain ⟨k, l⟩ := q
    simp only [pushDoc]
    by_cases hk : k = n
    · rw [if_pos hk]
      subst hk
      simp only [List.map_cons, List.mem_cons]
      tauto
    · rw [if_neg hk]
      simp only [List.map_cons, List.mem_cons, ih]
      tauto

theorem keys_pushDoc_nodup :
    ∀ (docs : List (String × List (Nat × Nat))) (n : String) (i : Nat × Nat),
    (docs.map Prod.fst).Nodup → ((pushDoc docs n i).map Prod.fst).Nodup := by
  intro docs
  induction docs with
  | nil => intro n i _; simp [pushDoc]
  | cons q rest ih =>
    intro n i hnd
    obtain ⟨k, l⟩ := q
    rw [List.map_cons, List.nodup_cons] at hnd
    simp only [pushDoc]
    by_cases hk : k = n
    · rw [if_pos hk]
      rw [List.map_cons, List.nodup_cons]
      exact hnd
    · rw [if_neg hk]
      rw [List.map_cons, List.nodup_cons]
      refine ⟨?_, ih n i hnd.2⟩
      intro hmem
      rcases (mem_keys_pushDoc rest n i k).mp hmem with h | h
      · exact hnd.1 h
      · exact hk h

theorem groupGet_processEntry :
    ∀ (entry : List (String × (Nat × Nat))) (docs : List (String × List (Nat × Nat)))
      (m : String),
    groupGet (processEntry docs entry) m =
      groupGet docs m ++ (entry.filter (fun p => p.1 = m)).map (fun p => p.2) := by
  intro entry
  induction entry with
  | nil => intro docs m; simp [processEntry]
  | cons p e ih =>
    intro docs m
    have hstep : processEntry docs (p :: e) = processEntry (pushDoc docs p.1 p.2) e := rfl
    rw [hstep, ih, groupGet_pushDoc]
    by_cases hm : m = p.1
    · rw [if_pos hm]
      rw [List.filter_cons, if_pos (by simp [hm])]
      simp [List.append_assoc]
    · rw [if_neg hm]
      rw [List.filter_cons,
        if_neg (by simp only [decide_eq_true_eq]; exact fun hh => hm hh.symm)]

theorem processEntry_keys_nodup :
    ∀ (entry : List (String × (Nat × Nat))) (docs : List (String × List (Nat × Nat))),
    (docs.map Prod.fst).Nodup → ((processEntry docs entry).map Prod.fst).Nodup := by
  intro entry
  induction entry with
  | nil => intro docs h; exact h
  | cons p e ih =>
    intro docs h
    have hstep : processEntry docs (p :: e) = processEntry (pushDoc docs p.1 p.2) e := rfl
    rw [hstep]
    exact ih (pushDoc docs p.1 p.2) (keys_pushDoc_nodup docs p.1 p.2 h)

theorem groupGet_termsFold (s : DFState) :
    ∀ (terms : List String) (docs : List (String × List (Nat × Nat))) (m : String),
    groupGet
      (terms.foldl (fun d t => processEntry d ((s.wordsTable t).getD [])) docs) m =
      groupGet docs m ++ specInfos s terms m := by
  intro terms
  induction terms with
  | nil => intro docs m; simp [specInfos]
  | cons t ts ih =>
    intro docs m
    have hstep : (t :: ts).foldl (fun d u => processEntry d ((s.wordsTable u).getD [])) docs =
        ts.foldl (fun d u => processEntry d ((s.wordsTable u).getD []))
          (processEntry docs ((s.wordsTable t).getD [])) := rfl
    rw [hstep, ih, groupGet_processEntry]
    rw [List.append_assoc]
    rfl

theorem groupGet_findDocs (s : DFState) (terms : List String) (m : String) :
    groupGet (findDocs s terms) m = specInfos s terms m := by
  unfold findDocs
  rw [groupGet_termsFold]
  simp [groupGet, lookupA]

theorem findDocs_keys_nodup (s : DFState) (terms : List String) :
    ((findDocs s terms).map Prod.fst).Nodup := by
  unfold findDocs
  have aux : ∀ (ts : List String) (docs : List (String × List (Nat × Nat))),
      (docs.map Prod.fst).Nodup →
      ((ts.foldl (fun d t => processEntry d ((s.wordsTable t).getD [])) docs).map
        Prod.fst).Nodup := by
    intro ts
    induction ts with
    | nil => intro docs h; exact h
    | cons t ts ih =>
      intro docs h
      exact ih (processEntry docs ((s.wordsTable t).getD []))
        (processEntry_keys_nodup ((s.wordsTable t).getD []) docs h)
  exact aux terms [] List.nodup_nil

/-! ### Score lemmas -/

theorem foldl_add_counts :
    ∀ (l : List (Nat × Nat)) (a : Nat),
    l.foldl (fun acc wi => acc + wi.1) a = a + sumCounts l := by
  intro l
  induction l with
  | nil => intro a; simp [sumCounts]
  | cons x xs ih =>
    intro a
    have h1 : (x :: xs).foldl (fun acc wi => acc + wi.1) a =
        xs.foldl (fun acc wi => acc + wi.1) (a + x.1) := rfl
    have h2 : sumCounts (x :: xs) = xs.foldl (fun acc wi => acc + wi.1) (0 + x.1) := rfl
    rw [h1, h2, ih (a + x.1), ih (0 + x.1)]
    omega

theorem sumCounts_append (l1 l2 : List (Nat × Nat)) :
    sumCounts (l1 ++ l2) = sumCounts l1 + sumCounts l2 := by
  unfold sumCounts
  rw [List.foldl_append]
  rw [foldl_add_counts]
  rfl

theorem countFor_eq (s : DFState) (t m : String) :
    countFor s t m =
      sumCounts ((((s.wordsTable t).getD []).filter (fun p => p.1 = m)).map (fun p => p.2)) :=
  rfl

theorem specInfos_sum (s : DFState) :
    ∀ (terms : List String) (m : String),
    sumCounts (specInfos s terms m) = (terms.map (fun t => countFor s t m)).sum := by
  intro terms
  induction terms with
  | nil => intro m; simp [specInfos, sumCounts]
  | cons t ts ih =>
    intro m
    unfold specInfos
    rw [sumCounts_append, List.map_cons, List.sum_cons, ih m, countFor_eq]

/-! ### buildResults lemmas -/

theorem buildResults_ok (s : DFState) :
    ∀ (docs : List (String × List (Nat × Nat))) (rs : List Result),
    buildResults s docs = Except.ok rs →
    rs.map (fun r => r.name) = docs.map (fun p => p.1) ∧
    ∀ r ∈ rs, ∃ p, p ∈ docs ∧ r.name = p.1 ∧ r.score = sumCounts p.2 := by
  intro docs
  induction docs with
  | nil =>
    intro rs h
    have : rs = [] := (Except.ok.inj h).symm
    subst this
    exact ⟨rfl, fun r hr => absurd hr (List.not_mem_nil r)⟩
  | cons q rest ih =>
    intro rs h
    obtain ⟨name, infos⟩ := q
    simp only [buildResults] at h
    cases hdc : docContent s name with
    | error e => rw [hdc] at h; exact Except.noConfusion h
    | ok doc =>
      rw [hdc] at h
      cases hbr : buildResults s rest with
      | error e => rw [hbr] at h; exact Except.noConfusion h
      | ok rs2 =>
        rw [hbr] at h
        have hrs : rs = offsetResult name (sumCounts infos)
            (infos.map (fun wi => wi.2)) doc :: rs2 := (Except.ok.inj h).symm
        subst hrs
        obtain ⟨ihn, ihm⟩ := ih rs2 hbr
        constructor
        · rw [List.map_cons, List.map_cons, ihn]
          rfl
        · intro r hr
          rcases List.mem_cons.mp hr with h1 | h1
          · subst h1
            exact ⟨(name, infos), List.mem_cons_self _ _, rfl, rfl⟩
          · rcases ihm r h1 with ⟨p, hp, h2, h3⟩
            exact ⟨p, List.mem_cons.mpr (Or.inr hp), h2, h3⟩

/-! ### Claim theorems -/

/-- Claim C2: calling addContent twice with identical name and text leaves
the whole state (contents, inverted index, completion index) equal to the
state after a single call. -/
theorem C2_addContent_idempotent (s : DFState) (name text : String) :
    addContent (addContent s name text) name text = addContent s name text := by
  unfold addContent
  apply DFState.ext
  · funext x
    by_cases h : x = name
    · simp [h]
    · simp [h]
  · rfl
  · rfl
  · exact saveWords_idem _ _ _
  · exact updateCompletions_idem _ _

/-- Claim C5: after addContent with a name and text, docContent of that
name returns the text with exactly one trailing newline appended when the
text lacked one, and the text unchanged when it already ended with a
newline. -/
theorem C5_roundtrip (s : DFState) (name text : String) :
    docContent (addContent s name text) name =
      Except.ok (if text.data.getLast? = some '\n' then text else text.push '\n') := by
  unfold docContent addContent ensureNL
  simp

/-- Claim C7: word extraction is tokenization followed by normalization
with empty words dropped and noise words filtered, keeping the raw token
offsets and the document order; every kept word is a nonempty lowercase
word not in the noise set; and normalization lowercases, strips a trailing
apostrophe-s before the non-alphabetic strip, then drops every character
outside the lowercase letters. -/
theorem C7_extraction (noise : List String) (text : String) :
    wordsLow noise text = (tokenize text).filterMap (normFilter noise) ∧
    (∀ p ∈ wordsLow noise text, isLowerWord p.1 = true ∧ ¬ p.1 ∈ noise) ∧
    normalizeWord (String.mk ['D', 'o', 'g', apostrophe, 's']) = "dog" ∧
    normalizeWord (String.mk ['D', 'o', 'g', apostrophe, 's', '!']) = "dogs" := by
  refine ⟨wordsLow_eq noise text, ?_, by decide, by decide⟩
  intro p hp
  have hw : p.1 ∈ wordsOf noise text := List.mem_map.mpr ⟨p, hp, rfl⟩
  rcases (mem_wordsOf noise text p.1).mp hw with ⟨⟨q, _, he⟩, hne, hnn⟩
  have h1 : ¬ normalizeWord q.1 = "" := by rw [he]; exact hne
  have h2 := isLowerWord_normalizeWord q.1 h1
  rw [he] at h2
  exact ⟨h2, hnn⟩

/-- Witness for claim C7 at a concrete text and noise list. -/
theorem C7_witness : isLowerWord "dog" = true ∧ ¬ "dog" ∈ (["the"] : List String) :=
  (C7_extraction ["the"] "The Dog").2.1 ("dog", 4) (by decide)

/-- Claim C9: docContent of an absent name fails with the NOT_FOUND error
carrying the name in its message, and docContent of a present name returns
the stored content; the operation reads the state and never changes it. -/
theorem C9_docContent (s : DFState) (name : String) :
    (s.contents name = none →
      docContent s name =
        Except.error ⟨"NOT_FOUND", "doc " ++ name ++ " not found"⟩) ∧
    (∀ c, s.contents name = some c → docContent s name = Except.ok c) := by
  constructor
  · intro h
    unfold docContent
    rw [h]
  · intro c h
    unfold docContent
    rw [h]

/-- Witness for claim C9: a missing document and a present document. -/
theorem C9_witness :
    docContent emptyState "nope" =
      Except.error ⟨"NOT_FOUND", "doc nope not found"⟩ ∧
    docContent (addContent emptyState "a" "x") "a" = Except.ok "x\n" :=
  ⟨(C9_docContent emptyState "nope").1 rfl,
   (C9_docContent (addContent emptyState "a" "x") "a").2 "x\n" (by decide)⟩

theorem lookupA_mem {α β : Type} [DecidableEq α] :
    ∀ (l : List (α × β)) (k : α) (v : β), lookupA l k = some v → (k, v) ∈ l := by
  intro l
  induction l with
  | nil => intro k v h; exact Option.noConfusion h
  | cons p ps ih =>
    intro k v h
    obtain ⟨k2, v2⟩ := p
    simp only [lookupA] at h
    by_cases hk : k2 = k
    · rw [if_pos hk] at h
      have := Option.some.inj h
      rw [← this, ← hk]
      exact List.mem_cons_self _ _
    · rw [if_neg hk] at h
      exact List.mem_cons.mpr (Or.inr (ih k v h))

/-- Claim C1 (amended): starting from a state in which document d appears in
no inverted-index entry, after addContent of d the entry of a word w
mentions d iff w occurs at least once as a non-noise normalized word in the
ingested content; the original claim over arbitrary re-ingestion fails, see
the counterexample: a prior contribution of d is never erased. -/
theorem C1_index_membership (s : DFState) (d text : String)
    (h : ∀ w, docInWord s w d = false) :
    ∀ w, docInWord (addContent s d text) w d = true ↔
      w ∈ wordsOf s.noiseWords (ensureNL text) := by
  intro w
  have htab : (addContent s d text).wordsTable =
      saveWords s.wordsTable d (makeIndex s.noiseWords (ensureNL text)) := rfl
  unfold docInWord
  rw [htab, saveWords_apply]
  cases hl : lastLookup (makeIndex s.noiseWords (ensureNL text)) w with
  | none =>
    have h2 := h w
    unfold docInWord at h2
    constructor
    · intro hh
      rw [h2] at hh
      exact Bool.noConfusion hh
    · intro hw
      have hk : w ∈ (makeIndex s.noiseWords (ensureNL text)).map Prod.fst :=
        (mem_keys_makeIndex _ _ w).mpr hw
      unfold lastLookup at hl
      rw [lookupA_eq_none] at hl
      rw [List.map_reverse] at hl
      exact absurd (List.mem_reverse.mpr hk) hl
  | some v =>
    constructor
    · intro _
      have hk : w ∈ (makeIndex s.noiseWords (ensureNL text)).map Prod.fst := by
        unfold lastLookup at hl
        have := lookupA_mem_keys hl
        rw [List.map_reverse] at this
        exact List.mem_reverse.mp this
      exact (mem_keys_makeIndex _ _ w).mp hk
    · intro _
      exact any_setAssoc_self _ d v

/-- Counterexample to claim C1 as stated: re-ingesting document d with
different content leaves the entry of the old word apple still mentioning
d although apple does not occur in the current content of d. -/
theorem C1_counterexample :
    docInWord (addContent (addContent emptyState "d" "apple") "d" "banana")
      "apple" "d" = true ∧
    ¬ "apple" ∈ wordsOf
      (addContent (addContent emptyState "d" "apple") "d" "banana").noiseWords
      (ensureNL "banana") := by
  decide

/-- Witness for the amended claim C1 at a concrete first ingestion. -/
theorem C1_witness :
    docInWord (addContent emptyState "doc" "hello") "hello" "doc" = true :=
  ((C1_index_membership emptyState "doc" "hello" (fun _ => rfl)) "hello").mpr (by decide)

/-- Claim C8: with the persisted noise collection and the in-memory cache in
sync, addNoiseWords is idempotent, and after a call every normalized word of
the text is a member of both the cache and the persisted collection. -/
theorem C8_addNoiseWords (s : DFState) (text : String)
    (hsync : s.noiseTable = s.noiseWords) :
    addNoiseWords (addNoiseWords s text) text = addNoiseWords s text ∧
    ∀ w ∈ normalizedWordsOf text,
      w ∈ (addNoiseWords s text).noiseWords ∧ w ∈ (addNoiseWords s text).noiseTable := by
  have hmem : ∀ w ∈ normalizedWordsOf text, w ∈ (addNoiseWords s text).noiseWords := by
    intro w hw
    rcases (mem_normalizedWordsOf text w).mp hw with ⟨⟨p, hp, he⟩, hne⟩
    have hcache : (addNoiseWords s text).noiseWords =
        s.noiseWords ++ (jsDedup (wordsOf s.noiseWords text)).filter
          (fun v => ¬ v ∈ s.noiseWords) := rfl
    rw [hcache, List.mem_append]
    by_cases hn : w ∈ s.noiseWords
    · exact Or.inl hn
    · refine Or.inr (List.mem_filter.mpr ⟨?_, by simp [hn]⟩)
      rw [mem_jsDedup]
      exact (mem_wordsOf s.noiseWords text w).mpr ⟨⟨p, hp, he⟩, hne, hn⟩
  have hnil : wordsOf (addNoiseWords s text).noiseWords text = [] := by
    have hfm : wordsLow (addNoiseWords s text).noiseWords text = [] := by
      rw [wordsLow_eq]
      refine List.filterMap_eq_nil_iff.mpr ?_
      intro p hp
      unfold normFilter
      by_cases he : normalizeWord p.1 = ""
      · rw [if_pos (Or.inl he)]
      · have hw : normalizeWord p.1 ∈ normalizedWordsOf text :=
          (mem_normalizedWordsOf text _).mpr ⟨⟨p, hp, rfl⟩, he⟩
        rw [if_pos (Or.inr (hmem _ hw))]
    unfold wordsOf
    rw [hfm]
    rfl
  constructor
  · apply DFState.ext
    · rfl
    · show (addNoiseWords s text).noiseTable ++
        (jsDedup (wordsOf (addNoiseWords s text).noiseWords text)).filter
          (fun v => ¬ v ∈ (addNoiseWords s text).noiseWords) =
        (addNoiseWords s text).noiseTable
      rw [hnil]
      simp [jsDedup, dedupAux]
    · show (addNoiseWords s text).noiseWords ++
        (jsDedup (wordsOf (addNoiseWords s text).noiseWords text)).filter
          (fun v => ¬ v ∈ (addNoiseWords s text).noiseWords) =
        (addNoiseWords s text).noiseWords
      rw [hnil]
      simp [jsDedup, dedupAux]
    · rfl
    · rfl
  · intro w hw
    refine ⟨hmem w hw, ?_⟩
    have htab : (addNoiseWords s text).noiseTable =
        s.noiseTable ++ (jsDedup (wordsOf s.noiseWords text)).filter
          (fun v => ¬ v ∈ s.noiseWords) := rfl
    have hcache : (addNoiseWords s text).noiseWords =
        s.noiseWords ++ (jsDedup (wordsOf s.noiseWords text)).filter
          (fun v => ¬ v ∈ s.noiseWords) := rfl
    have hm := hmem w hw
    rw [hcache] at hm
    rw [htab, hsync]
    exact hm

/-- Witness for claim C8 at a concrete text over the empty state. -/
theorem C8_witness :
    addNoiseWords (addNoiseWords emptyState "The cat") "The cat" =
      addNoiseWords emptyState "The cat" ∧
    ("the" ∈ (addNoiseWords emptyState "The cat").noiseWords ∧
      "the" ∈ (addNoiseWords emptyState "The cat").noiseTable) :=
  ⟨(C8_addNoiseWords emptyState "The cat" rfl).1,
   (C8_addNoiseWords emptyState "The cat" rfl).2 "the" (by decide)⟩

/-- Claim C10: the well-formedness of all stored words (nonempty lowercase
index keys, noise words and completion words, with every completion entry
keyed by the first character of its words) is preserved by addContent and
by addNoiseWords. -/
theorem C10_wellformed (s : DFState) (hwf : WF s) :
    (∀ name text, WF (addContent s name text)) ∧ (∀ text, WF (addNoiseWords s text)) := by
  obtain ⟨hw1, hw2, hw3, hw4⟩ := hwf
  constructor
  · intro name text
    refine ⟨?_, ?_, ?_, ?_⟩
    · intro w e he
      have htab : (addContent s name text).wordsTable =
          saveWords s.wordsTable name (makeIndex s.noiseWords (ensureNL text)) := rfl
      rw [htab, saveWords_apply] at he
      cases hl : lastLookup (makeIndex s.noiseWords (ensureNL text)) w with
      | none =>
        rw [hl] at he
        exact hw1 w e he
      | some v =>
        have hk : w ∈ (makeIndex s.noiseWords (ensureNL text)).map Prod.fst := by
          unfold lastLookup at hl
          have := lookupA_mem_keys hl
          rw [List.map_reverse] at this
          exact List.mem_reverse.mp this
        exact wordsOf_lower _ _ w ((mem_keys_makeIndex _ _ w).mp hk)
    · intro w hw
      exact hw2 w hw
    · intro w hw
      exact hw3 w hw
    · intro c l hl
      have htab : (addContent s name text).completionsTable =
          updateCompletions s.completionsTable
            ((makeIndex s.noiseWords (ensureNL text)).map Prod.fst) := rfl
      rw [htab, updateCompletions_apply] at hl
      cases hlk : lookupA
          (makeCompletions ((makeIndex s.noiseWords (ensureNL text)).map Prod.fst)) c with
      | none =>
        rw [hlk] at hl
        exact hw4 c l hl
      | some ws =>
        rw [hlk] at hl
        have hleq := Option.some.inj hl
        intro w hwmem
        rw [← hleq] at hwmem
        rw [mem_jsDedup, List.mem_append] at hwmem
        rcases hwmem with hmem | hmem
        · have hgrp := makeCompletions_val
            ((makeIndex s.noiseWords (ensureNL text)).map Prod.fst)
            (c, ws) (lookupA_mem _ c ws hlk) w hmem
          refine ⟨?_, hgrp.2⟩
          exact wordsOf_lower _ _ w ((mem_keys_makeIndex _ _ w).mp hgrp.1)
        · cases hc : s.completionsTable c with
          | some lp =>
            rw [hc] at hmem
            exact hw4 c lp hc w hmem
          | none =>
            rw [hc] at hmem
            exact absurd hmem (List.not_mem_nil w)
  · intro text
    refine ⟨?_, ?_, ?_, ?_⟩
    · intro w e he
      exact hw1 w e he
    · intro w hw
      rw [show (addNoiseWords s text).noiseWords =
          s.noiseWords ++ (jsDedup (wordsOf s.noiseWords text)).filter
            (fun v => ¬ v ∈ s.noiseWords) from rfl, List.mem_append] at hw
      rcases hw with h | h
      · exact hw2 w h
      · have hf := List.mem_filter.mp h
        exact wordsOf_lower _ _ w ((mem_jsDedup _ w).mp hf.1)
    · intro w hw
      rw [show (addNoiseWords s text).noiseTable =
          s.noiseTable ++ (jsDedup (wordsOf s.noiseWords text)).filter
            (fun v => ¬ v ∈ s.noiseWords) from rfl, List.mem_append] at hw
      rcases hw with h | h
      · exact hw3 w h
      · have hf := List.mem_filter.mp h
        exact wordsOf_lower _ _ w ((mem_jsDedup _ w).mp hf.1)
    · intro c l hl
      exact hw4 c l hl

/-- The empty state is well formed: every collection is empty. -/
theorem WF_emptyState : WF emptyState := by
  refine ⟨?_, ?_, ?_, ?_⟩
  · intro w e he
    exact Option.noConfusion he
  · intro w hw
    exact absurd hw (List.not_mem_nil w)
  · intro w hw
    exact absurd hw (List.not_mem_nil w)
  · intro c l hl
    exact Option.noConfusion hl

/-- Witness for claim C10: well-formedness after a concrete ingestion over
the empty state. -/
theorem C10_witness : WF (addContent emptyState "d" "Hello world") :=
  (C10_wellformed emptyState WF_emptyState).1 "d" "Hello world"

theorem updateCompletions_nodup (t : Char → Option (List String)) (ws : List String)
    (h : ∀ c l, t c = some l → l.Nodup) :
    ∀ c l, updateCompletions t ws c = some l → l.Nodup := by
  intro c l hl
  rw [updateCompletions_apply] at hl
  cases hk : lookupA (makeCompletions ws) c with
  | none =>
    rw [hk] at hl
    exact h c l hl
  | some ws2 =>
    rw [hk] at hl
    have := Option.some.inj hl
    rw [← this]
    exact jsDedup_nodup _

/-- Claim C6: when the last character of the text is not an ASCII letter,
complete returns the empty list; a missing completion entry yields the
empty list rather than an error; over a state whose completion entries are
duplicate-free, the returned list is strictly sorted ascending (hence has
no duplicates); and every returned word extends the normalized final
token. -/
theorem C6_complete (s : DFState) (text : String)
    (hwf : ∀ c l, s.completionsTable c = some l → l.Nodup) :
    (lastCharAlpha text = false → complete s text = []) ∧
    (∀ c, (normalizeWord (lastToken text)).data.head? = some c →
      s.completionsTable c = none → complete s text = []) ∧
    List.Pairwise (fun a b => strLe a b = true ∧ ¬ a = b) (complete s text) ∧
    (∀ w ∈ complete s text,
      (normalizeWord (lastToken text)).data.isPrefixOf w.data = true) := by
  by_cases hguard : lastCharAlpha text = true
  · have hcomp : complete s text =
        (isort strLe
          (match (normalizeWord (lastToken text)).data.head? with
            | some c => (s.completionsTable c).getD []
            | none => [])).filter
          (fun w => (normalizeWord (lastToken text)).data.isPrefixOf w.data) := by
      unfold complete
      rw [if_pos hguard]
    refine ⟨?_, ?_, ?_, ?_⟩
    · intro hfalse
      rw [hguard] at hfalse
      exact Bool.noConfusion hfalse
    · intro c hc hnone
      have hentry : (match (normalizeWord (lastToken text)).data.head? with
          | some c2 => (s.completionsTable c2).getD []
          | none => ([] : List String)) = [] := by
        rw [hc]
        show (s.completionsTable c).getD [] = []
        rw [hnone]
        rfl
      rw [hcomp, hentry]
      rfl
    · rw [hcomp]
      have hnodup : (match (normalizeWord (lastToken text)).data.head? with
          | some c => (s.completionsTable c).getD []
          | none => ([] : List String)).Nodup := by
        cases hh : (normalizeWord (lastToken text)).data.head? with
        | none => exact List.nodup_nil
        | some c =>
          show ((s.completionsTable c).getD []).Nodup
          cases ht : s.completionsTable c with
          | none => exact List.nodup_nil
          | some l => exact hwf c l ht
      have hsorted := isort_pairwise strLe strLe_total
        (fun a b c h1 h2 => strLe_trans h1 h2)
        (match (normalizeWord (lastToken text)).data.head? with
          | some c => (s.completionsTable c).getD []
          | none => [])
      have hsnd : List.Pairwise (fun a b : String => ¬ a = b) (isort strLe
          (match (normalizeWord (lastToken text)).data.head? with
            | some c => (s.completionsTable c).getD []
            | none => [])) :=
        ((isort_perm strLe _).nodup_iff).mpr hnodup
      exact (hsorted.and hsnd).filter _
    · intro w hw
      rw [hcomp] at hw
      exact (List.mem_filter.mp hw).2
  · have hfalse : lastCharAlpha text = false := by
      cases hb : lastCharAlpha text with
      | true => exact absurd hb hguard
      | false => rfl
    have hcomp : complete s text = [] := by
      unfold complete
      rw [if_neg hguard]
    refine ⟨fun _ => hcomp, fun _ _ _ => hcomp, ?_, ?_⟩
    · rw [hcomp]
      exact List.Pairwise.nil
    · intro w hw
      rw [hcomp] at hw
      exact absurd hw (List.not_mem_nil w)

/-- Witness for claim C6 over a concretely ingested state. -/
theorem C6_witness :
    List.Pairwise (fun a b => strLe a b = true ∧ ¬ a = b)
      (complete (addContent emptyState "doc" "alpha beta\ngamma alpha\n") "xy al") :=
  (C6_complete (addContent emptyState "doc" "alpha beta\ngamma alpha\n") "xy al"
    (fun c l hl =>
      updateCompletions_nodup emptyState.completionsTable
        ((makeIndex emptyState.noiseWords
          (ensureNL "alpha beta\ngamma alpha\n")).map Prod.fst)
        (fun _ _ hh => Option.noConfusion hh) c l hl)).2.2.1

/-- Claim C4 (amended): the excerpt lines come from the first-occurrence
offset of each matched term (start of line after the preceding newline,
deduplicated, sorted, cut through the next newline), so searching alpha in
the document "alpha beta\ngamma alpha\n" yields score 2 with exactly the
single line "alpha beta\n". -/
theorem C4_excerpt :
    find (addContent emptyState "doc" "alpha beta\ngamma alpha\n") "alpha" =
      Except.ok [⟨"doc", 2, ["alpha beta\n"]⟩] := by
  decide

/-- Counterexample to claim C4 as stated: the search does not return the two
lines the claim asserts, because only the first occurrence of each matched
term contributes an offset. -/
theorem C4_counterexample :
    ¬ find (addContent emptyState "doc" "alpha beta\ngamma alpha\n") "alpha" =
      Except.ok [⟨"doc", 2, ["alpha beta\n", "gamma alpha\n"]⟩] := by
  decide

/-- Claim C3: when find succeeds, its results are pairwise ordered by
strictly descending score with ties broken by strictly ascending document
name, and the score of every result is the sum over the deduplicated
non-noise query terms of the stored occurrence counts of that term for the
document. -/
theorem C3_find_ranked (s : DFState) (text : String) (res : List Result)
    (h : find s text = Except.ok res) :
    List.Pairwise (fun r1 r2 =>
      r2.score < r1.score ∨
        (r2.score = r1.score ∧ strLe r1.name r2.name = true ∧ ¬ r1.name = r2.name)) res ∧
    ∀ r ∈ res, r.score = scoreSpec s text r.name := by
  unfold find at h
  cases hb : buildResults s (findDocs s (jsDedup (wordsOf s.noiseWords text))) with
  | error e =>
    rw [hb] at h
    exact Except.noConfusion h
  | ok results =>
    rw [hb] at h
    have hres : res = isort resultLe results := (Except.ok.inj h).symm
    obtain ⟨hnames, hmem⟩ := buildResults_ok s _ _ hb
    have hknd := findDocs_keys_nodup s (jsDedup (wordsOf s.noiseWords text))
    have hrnd : (results.map (fun r => r.name)).Nodup := by
      rw [hnames]
      exact hknd
    have hperm : (isort resultLe results).Perm results := isort_perm resultLe results
    have hsnd : ((isort resultLe results).map (fun r => r.name)).Nodup :=
      ((hperm.map (fun r => r.name)).nodup_iff).mpr hrnd
    have hpw := isort_pairwise resultLe resultLe_total resultLe_trans results
    have hne : List.Pairwise (fun r1 r2 : Result => ¬ r1.name = r2.name)
        (isort resultLe results) := List.pairwise_map.mp hsnd
    constructor
    · rw [hres]
      refine (hpw.and hne).imp ?_
      intro a b hab
      rcases hab with ⟨hle, hname⟩
      rw [resultLe_iff] at hle
      rcases hle with h1 | h1
      · exact Or.inl h1
      · exact Or.inr ⟨h1.1, h1.2, hname⟩
    · intro r hr
      rw [hres] at hr
      have hr2 : r ∈ results := (hperm.mem_iff).mp hr
      rcases hmem r hr2 with ⟨p, hp, hn, hs⟩
      have hlk : lookupA (findDocs s (jsDedup (wordsOf s.noiseWords text))) p.1 =
          some p.2 :=
        lookupA_of_mem_of_nodup _ p.1 p.2 hknd (by rw [Prod.mk.eta]; exact hp)
      have hgg : groupGet (findDocs s (jsDedup (wordsOf s.noiseWords text))) p.1 = p.2 := by
        unfold groupGet
        rw [hlk]
        rfl
      have hspec := groupGet_findDocs s (jsDedup (wordsOf s.noiseWords text)) p.1
      rw [hgg] at hspec
      rw [hs, hn, hspec, specInfos_sum]
      rfl

/-- Witness for claim C3 over two concretely ingested documents. -/
theorem C3_witness :
    List.Pairwise (fun r1 r2 : Result =>
      r2.score < r1.score ∨
        (r2.score = r1.score ∧ strLe r1.name r2.name = true ∧ ¬ r1.name = r2.name))
      [⟨"b", 2, ["x x\n"]⟩, ⟨"a", 1, ["x\n"]⟩] ∧
    (2 : Nat) = scoreSpec (addContent (addContent emptyState "a" "x") "b" "x x") "x" "b" :=
  ⟨(C3_find_ranked (addContent (addContent emptyState "a" "x") "b" "x x") "x"
      [⟨"b", 2, ["x x\n"]⟩, ⟨"a", 1, ["x\n"]⟩] (by decide)).1,
   (C3_find_ranked (addContent (addContent emptyState "a" "x") "b" "x x") "x"
      [⟨"b", 2, ["x x\n"]⟩, ⟨"a", 1, ["x\n"]⟩] (by decide)).2
     ⟨"b", 2, ["x x\n"]⟩ (by decide)⟩
